import Mathlib

/-!
Verification of the gravitational N-body simulator in `app.py`.

The physics core is shallowly embedded over exact real arithmetic:
2D vectors are pairs of reals, numpy elementwise operations become
componentwise operations on pairs, `np.linalg.norm` becomes
`Real.sqrt` of the sum of squares, and `math.atan2 y x` becomes the
argument of the complex number `x + i y` (both have range `(-π, π]`
and send the origin to `0`).  Mutation is embedded by explicit state
passing: `calculate_forces` folds the per-pair accumulation over the
list of index pairs visited by the nested `for` loops, and
`Body.update_state` performs the two assignments sequentially.
-/

namespace GravitySim

/-- World length (km) visible in window width (`WORLD_WIDTH = 5e8`). -/
def WORLD_WIDTH : ℝ := 5e8

/-- Gravity constant in km^3 / (kg s^2) (`GRAVITY_CONST = 6.6743e-20`). -/
def GRAVITY_CONST : ℝ := 6.6743e-20

/-- Seconds of simulated time per simulation step (`DELTA_T = 100`). -/
def DELTA_T : ℝ := 100

/-- Simulation steps per graphical update (`STEPS_PER_RENDER = 100`). -/
def STEPS_PER_RENDER : ℕ := 100

/-- A 2D vector in world coordinates, as a pair of reals. -/
abbrev Vec2 : Type := ℝ × ℝ

/-- Elementwise product of a vector with a scalar on the right,
as numpy broadcasts `v * s`. -/
def vscale (v : Vec2) (s : ℝ) : Vec2 := (v.1 * s, v.2 * s)

/-- Elementwise quotient of a vector by a scalar,
as numpy broadcasts `v / s`. -/
noncomputable def sdiv (v : Vec2) (s : ℝ) : Vec2 := (v.1 / s, v.2 / s)

/-- Euclidean norm of a 2D vector (`np.linalg.norm`). -/
noncomputable def norm2 (v : Vec2) : ℝ := Real.sqrt (v.1 ^ 2 + v.2 ^ 2)

/-- The two-argument arctangent `math.atan2 y x`: the principal argument
of the complex number `x + i y`.  Both functions have range `(-π, π]`
and map `(0, 0)` to `0`. -/
noncomputable def atan2 (y x : ℝ) : ℝ := Complex.arg ⟨x, y⟩

/-- A celestial body: the physical state of the Python `Body` class
(position, velocity, mass, radius, and the externally set force).
Graphics members (hue, circle, trail handle) carry no physical state
and are omitted. -/
structure Body where
  pos : Vec2
  vel : Vec2
  mass : ℝ
  radius : ℝ
  force : Vec2

/-- A dummy body, used as the default value of out-of-range list reads
(which never occur on the index ranges the theorems quantify over). -/
def body0 : Body := ⟨(0, 0), (0, 0), 0, 0, (0, 0)⟩

/-- `Body.set_force`: apply an externally calculated force. -/
def Body.set_force (b : Body) (f : Vec2) : Body := { b with force := f }

/-- `Body.update_state`: first-order Euler step, embedded with the two
assignments of the source performed in order (`self.pos = self.pos +
self.vel * dt` and then `self.vel = self.vel + a * dt`, with
`a = self.force / self.mass` computed first). -/
noncomputable def Body.update_state (b : Body) (dt : ℝ) : Body :=
  let a := sdiv b.force b.mass
  let b1 := { b with pos := b.pos + vscale b.vel dt }
  { b1 with vel := b1.vel + vscale a dt }

/-- The force the source computes for an ordered pair of objects:
magnitude `G * m1 * m2 / dist**2` decomposed along
`theta = atan2(delta[1], delta[0])` with `delta = obj2.pos - obj1.pos`. -/
noncomputable def pair_force (obj1 obj2 : Body) : Vec2 :=
  let delta := obj2.pos - obj1.pos
  let dist := norm2 delta
  let f_mag := GRAVITY_CONST * obj1.mass * obj2.mass / dist ^ 2
  let theta := atan2 delta.2 delta.1
  (f_mag * Real.cos theta, f_mag * Real.sin theta)

/-- Modelled from the spec's words, for comparison with `pair_force`:
the vector of magnitude `G * m_i * m_j / d^2` directed from body `i`
toward body `j` (`d` the Euclidean distance between positions). -/
noncomputable def spec_pair_force (bi bj : Body) : Vec2 :=
  let d := norm2 (bj.pos - bi.pos)
  (GRAVITY_CONST * bi.mass * bj.mass / d ^ 2 / d) • (bj.pos - bi.pos)

/-- One iteration of the inner loop body of `calculate_forces`:
`forces[obj1] += f; forces[obj2] += -f`, on the accumulator list. -/
noncomputable def apply_pair (objects : List Body) (acc : List Vec2)
    (p : ℕ × ℕ) : List Vec2 :=
  let f := pair_force (objects.getD p.1 body0) (objects.getD p.2 body0)
  let acc1 := acc.set p.1 (acc.getD p.1 (0, 0) + f)
  acc1.set p.2 (acc1.getD p.2 (0, 0) + -f)

/-- The index pairs visited by the nested loops
`for i1 in range(num_objects-1): for i2 in range(i1+1, num_objects)`. -/
def pair_indices (n : ℕ) : List (ℕ × ℕ) :=
  (List.range (n - 1)).flatMap
    (fun i1 => (List.range' (i1 + 1) (n - 1 - i1)).map (fun i2 => (i1, i2)))

/-- The per-object force accumulators of `calculate_forces` after the
pair loops complete (initialised to zero vectors, one per object). -/
noncomputable def accum_forces (objects : List Body) : List Vec2 :=
  (pair_indices objects.length).foldl (apply_pair objects)
    (List.replicate objects.length (0, 0))

/-- `calculate_forces`: accumulate pairwise forces, then set the
accumulated force on each object (dict iteration order is insertion
order, i.e. the list order). -/
noncomputable def calculate_forces (objects : List Body) : List Body :=
  List.zipWith Body.set_force objects (accum_forces objects)

/-- The final statement of `Trail.set_pos`: when more than 100 points
are stored, remove the oldest (`self.points = self.points[1:]`). -/
def trail_cap (pts : List Vec2) : List Vec2 :=
  if 100 < pts.length then pts.drop 1 else pts

/-- `Trail.set_pos`, on the stored point list (oldest first):
append while fewer than two points; otherwise collapse into the last
point when the new position is within 1% of the world width of the
second-to-last stored point, else append; finally drop the oldest
point when more than 100 are stored. -/
noncomputable def Trail.set_pos (points : List Vec2) (pos : Vec2) : List Vec2 :=
  trail_cap
    (if points.length < 2 then points ++ [pos]
     else if norm2 (points.getD (points.length - 2) (0, 0) - pos)
         < WORLD_WIDTH * 0.01 then
       points.set (points.length - 1) pos
     else points ++ [pos])

/-- A trail grown from the empty point list by recording the given
positions in order. -/
noncomputable def trail_run (ps : List Vec2) : List Vec2 :=
  ps.foldl Trail.set_pos []

/-- The simulation state owned by `MainWidget`: global simulated time
(seconds) and the list of bodies. -/
structure SimState where
  time : ℝ
  objects : List Body

/-- One iteration of the loop in `MainWidget.on_update`:
`self.time += dt`, then `calculate_forces(self.objects)`, then
`obj.update_state(dt)` for every object in order. -/
noncomputable def sim_step (dt : ℝ) (s : SimState) : SimState :=
  let s1 : SimState := { s with time := s.time + dt }
  let objs := calculate_forces s1.objects
  { s1 with objects := objs.map (fun b => b.update_state dt) }

/-- `MainWidget.on_update` generalised over the batch size: run
`n_steps` simulation steps of size `dt` (the source fixes
`n_steps = STEPS_PER_RENDER` and `dt = DELTA_T`). -/
noncomputable def on_update (n_steps : ℕ) (dt : ℝ) (s : SimState) : SimState :=
  (List.range n_steps).foldl (fun st _ => sim_step dt st) s

/-- Total linear momentum of a body list: the sum of `mass • velocity`. -/
noncomputable def momentum (objects : List Body) : Vec2 :=
  (objects.map (fun b => b.mass • b.vel)).sum

/-- The net contribution of one visited index pair to the accumulator of
index `i`: `+f` when `i` is the first component, `-f` when it is the
second. -/
noncomputable def pair_contrib (objects : List Body) (i : ℕ) (p : ℕ × ℕ) : Vec2 :=
  (if i = p.1 then pair_force (objects.getD p.1 body0) (objects.getD p.2 body0)
   else 0) +
  (if i = p.2 then -pair_force (objects.getD p.1 body0) (objects.getD p.2 body0)
   else 0)

/-- The invariant the trail decimation actually maintains: every stored
point other than the first two is at least the minimum spacing away from
the point two positions before it, unless it is within the minimum
spacing of the point immediately before it (a collapsed point). -/
def trail_inv (pts : List Vec2) : Prop :=
  ∀ k, k + 3 ≤ pts.length →
    WORLD_WIDTH * 0.01 ≤ norm2 (pts.getD k (0, 0) - pts.getD (k + 2) (0, 0))
    ∨ norm2 (pts.getD (k + 1) (0, 0) - pts.getD (k + 2) (0, 0))
        < WORLD_WIDTH * 0.01

/-- Setting index `i` and reading it back with `getD` yields the new value. -/
lemma getD_set_self {α : Type*} (a d : α) :
    ∀ (l : List α) (i : ℕ), i < l.length → (l.set i a).getD i d = a := by
  intro l
  induction l with
  | nil => intro i h; simp at h
  | cons x xs ih =>
    intro i h
    cases i with
    | zero => rfl
    | succ n => simpa using ih n (by simpa using h)

/-- Setting index `i` leaves `getD` at any other index unchanged. -/
lemma getD_set_ne {α : Type*} (a d : α) :
    ∀ (l : List α) (i j : ℕ), i ≠ j → (l.set i a).getD j d = l.getD j d := by
  intro l
  induction l with
  | nil => intro i j _; simp
  | cons x xs ih =>
    intro i j hij
    cases i with
    | zero =>
      cases j with
      | zero => exact absurd rfl hij
      | succ m => simp
    | succ n =>
      cases j with
      | zero => simp
      | succ m => simpa using ih n m (fun h => hij (by rw [h]))

lemma apply_pair_length (objects : List Body) (acc : List Vec2) (p : ℕ × ℕ) :
    (apply_pair objects acc p).length = acc.length := by
  simp [apply_pair]

/-- One inner-loop iteration adds exactly `pair_contrib` to each in-range
accumulator entry. -/
lemma apply_pair_getD (objects : List Body) (acc : List Vec2) (p : ℕ × ℕ)
    (i : ℕ) (hi : i < acc.length) :
    (apply_pair objects acc p).getD i (0, 0)
      = acc.getD i (0, 0) + pair_contrib objects i p := by
  simp only [apply_pair, pair_contrib]
  by_cases h1 : i = p.1 <;> by_cases h2 : i = p.2
  · rw [if_pos h1, if_pos h2, ← h1, ← h2,
      getD_set_self _ _ _ i (by simpa using hi),
      getD_set_self _ _ _ i hi, add_assoc]
  · rw [if_pos h1, if_neg h2, ← h1,
      getD_set_ne _ _ _ _ _ (fun h => h2 h.symm),
      getD_set_self _ _ _ i hi]
    simp
  · rw [if_neg h1, if_pos h2, ← h2,
      getD_set_self _ _ _ i (by simpa using hi),
      getD_set_ne _ _ _ _ _ (fun h => h1 h.symm)]
    simp
  · rw [if_neg h1, if_neg h2,
      getD_set_ne _ _ _ _ _ (fun h => h2 h.symm),
      getD_set_ne _ _ _ _ _ (fun h => h1 h.symm)]
    simp

lemma foldl_apply_pair_length (objects : List Body) :
    ∀ (L : List (ℕ × ℕ)) (acc : List Vec2),
      (L.foldl (apply_pair objects) acc).length = acc.length := by
  intro L
  induction L with
  | nil => intro acc; rfl
  | cons p L ih =>
    intro acc
    rw [List.foldl_cons, ih, apply_pair_length]

/-- Folding the inner-loop body over any pair list adds the sum of the
contributions to each in-range accumulator entry. -/
lemma foldl_apply_pair_getD (objects : List Body) :
    ∀ (L : List (ℕ × ℕ)) (acc : List Vec2) (i : ℕ), i < acc.length →
      (L.foldl (apply_pair objects) acc).getD i (0, 0)
        = acc.getD i (0, 0) + (L.map (pair_contrib objects i)).sum := by
  intro L
  induction L with
  | nil => intro acc i _; simp
  | cons p L ih =>
    intro acc i hi
    rw [List.foldl_cons, ih _ i (by rw [apply_pair_length]; exact hi),
      apply_pair_getD _ _ _ _ hi, List.map_cons, List.sum_cons, add_assoc]

lemma mem_pair_indices {n : ℕ} {p : ℕ × ℕ} (hp : p ∈ pair_indices n) :
    p.1 < p.2 ∧ p.2 < n := by
  unfold pair_indices at hp
  simp only [List.mem_flatMap, List.mem_map, List.mem_range,
    List.mem_range'_1] at hp
  obtain ⟨i1, hi1, i2, hi2, rfl⟩ := hp
  exact ⟨by omega, by omega⟩

/-- Replacing an in-range entry changes a list sum by the difference of
the new and old values (any default works for the in-range read). -/
lemma sum_set {M : Type*} [AddCommGroup M] (d : M) :
    ∀ (l : List M) (i : ℕ) (a : M), i < l.length →
      (l.set i a).sum = l.sum + a - l.getD i d := by
  intro l
  induction l with
  | nil => intro i a h; simp at h
  | cons x xs ih =>
    intro i a h
    cases i with
    | zero => simp; abel
    | succ n =>
      simp only [List.set_cons_succ, List.sum_cons, List.getD_cons_succ,
        ih n a (by simpa using h)]
      abel

/-- One inner-loop iteration preserves the total of the accumulators:
it adds `f` at one index and `-f` at the other. -/
lemma apply_pair_sum (objects : List Body) (acc : List Vec2) (p : ℕ × ℕ)
    (h1 : p.1 < acc.length) (h2 : p.2 < acc.length) :
    (apply_pair objects acc p).sum = acc.sum := by
  simp only [apply_pair]
  rw [sum_set ((0 : ℝ), (0 : ℝ)) _ _ _ (by simpa using h2),
    sum_set ((0 : ℝ), (0 : ℝ)) _ _ _ h1]
  abel

lemma foldl_apply_pair_sum (objects : List Body) :
    ∀ (L : List (ℕ × ℕ)) (acc : List Vec2),
      (∀ p ∈ L, p.1 < acc.length ∧ p.2 < acc.length) →
      (L.foldl (apply_pair objects) acc).sum = acc.sum := by
  intro L
  induction L with
  | nil => intro acc _; rfl
  | cons p L ih =>
    intro acc hb
    rw [List.foldl_cons,
      ih _ (fun q hq => by
        rw [apply_pair_length]; exact hb q (List.mem_cons_of_mem _ hq)),
      apply_pair_sum _ _ _ (hb p (List.mem_cons_self _ _)).1
        (hb p (List.mem_cons_self _ _)).2]

lemma accum_forces_length (objects : List Body) :
    (accum_forces objects).length = objects.length := by
  unfold accum_forces
  rw [foldl_apply_pair_length, List.length_replicate]

/-- The accumulators of `calculate_forces` sum to the zero vector. -/
lemma accum_forces_sum (objects : List Body) :
    (accum_forces objects).sum = 0 := by
  unfold accum_forces
  rw [foldl_apply_pair_sum]
  · simp
  · intro p hp
    have h := mem_pair_indices hp
    simp only [List.length_replicate]
    omega

lemma calculate_forces_length (objects : List Body) :
    (calculate_forces objects).length = objects.length := by
  simp [calculate_forces, accum_forces_length]

/-- Reading an entry of the zipped `set_force` pass. -/
lemma getD_zipWith_set_force :
    ∀ (l1 : List Body) (l2 : List Vec2) (i : ℕ), i < l1.length →
      l2.length = l1.length →
      (List.zipWith Body.set_force l1 l2).getD i body0
        = (l1.getD i body0).set_force (l2.getD i (0, 0)) := by
  intro l1
  induction l1 with
  | nil => intro l2 i h _; simp at h
  | cons b l1 ih =>
    intro l2 i h hlen
    cases l2 with
    | nil => simp at hlen
    | cons f l2 =>
      cases i with
      | zero => rfl
      | succ n => simpa using ih l2 n (by simpa using h) (by simpa using hlen)

lemma calculate_forces_getD (objects : List Body) (i : ℕ)
    (hi : i < objects.length) :
    (calculate_forces objects).getD i body0
      = (objects.getD i body0).set_force ((accum_forces objects).getD i (0, 0)) := by
  unfold calculate_forces
  exact getD_zipWith_set_force objects _ i hi (accum_forces_length objects)

/-- Everything the source computes from `atan2` agrees with the spec's
magnitude-and-direction description once the two positions differ. -/
lemma pair_force_eq_spec (b1 b2 : Body) (h : b1.pos ≠ b2.pos) :
    pair_force b1 b2 = spec_pair_force b1 b2 := by
  have hd : b2.pos - b1.pos ≠ 0 := sub_ne_zero.mpr (fun e => h e.symm)
  have hz : (⟨(b2.pos - b1.pos).1, (b2.pos - b1.pos).2⟩ : ℂ) ≠ 0 := by
    intro e
    apply hd
    have e1 := congrArg Complex.re e
    have e2 := congrArg Complex.im e
    simp only [Complex.zero_re, Complex.zero_im] at e1 e2
    exact Prod.ext e1 e2
  have habs : Complex.abs ⟨(b2.pos - b1.pos).1, (b2.pos - b1.pos).2⟩
      = norm2 (b2.pos - b1.pos) := by
    rw [Complex.abs_apply, Complex.normSq_mk, norm2]
    ring_nf
  simp only [pair_force, spec_pair_force, atan2]
  rw [Complex.cos_arg hz, Complex.sin_arg, habs]
  apply Prod.ext <;>
    simp only [Prod.smul_fst, Prod.smul_snd, smul_eq_mul] <;> ring

lemma norm2_sub_comm (u v : Vec2) : norm2 (u - v) = norm2 (v - u) := by
  unfold norm2
  rw [show u - v = -(v - u) by abel]
  simp only [Prod.fst_neg, Prod.snd_neg]
  ring_nf

/-- The spec's pairwise force is antisymmetric in its two bodies. -/
lemma spec_pair_force_antisymm (b1 b2 : Body) :
    spec_pair_force b2 b1 = -spec_pair_force b1 b2 := by
  simp only [spec_pair_force]
  rw [norm2_sub_comm b1.pos b2.pos,
    show b1.pos - b2.pos = -(b2.pos - b1.pos) by abel, smul_neg,
    show GRAVITY_CONST * b2.mass * b1.mass
        = GRAVITY_CONST * b1.mass * b2.mass by ring]

lemma update_state_mass (b : Body) (dt : ℝ) :
    (b.update_state dt).mass = b.mass := rfl

lemma update_state_radius (b : Body) (dt : ℝ) :
    (b.update_state dt).radius = b.radius := rfl

lemma update_state_force (b : Body) (dt : ℝ) :
    (b.update_state dt).force = b.force := rfl

lemma update_state_pos (b : Body) (dt : ℝ) :
    (b.update_state dt).pos = b.pos + vscale b.vel dt := rfl

lemma update_state_vel (b : Body) (dt : ℝ) :
    (b.update_state dt).vel = b.vel + vscale (sdiv b.force b.mass) dt := rfl

/-- One Euler step changes a body's momentum by `dt • force`. -/
lemma mass_smul_update_vel (b : Body) (dt : ℝ) (hm : b.mass ≠ 0) :
    b.mass • (b.update_state dt).vel = b.mass • b.vel + dt • b.force := by
  rw [update_state_vel]
  apply Prod.ext <;>
    simp only [sdiv, vscale, Prod.smul_fst, Prod.smul_snd, Prod.fst_add,
      Prod.snd_add, smul_eq_mul] <;>
    field_simp <;> ring

lemma momentum_map_update (dt : ℝ) :
    ∀ objs : List Body, (∀ b ∈ objs, b.mass ≠ 0) →
      momentum (objs.map (fun b => b.update_state dt))
        = momentum objs + dt • (objs.map Body.force).sum := by
  intro objs
  induction objs with
  | nil => intro _; simp [momentum]
  | cons b objs ih =>
    intro hm
    simp only [momentum, List.map_cons, List.sum_cons] at ih ⊢
    rw [update_state_mass, mass_smul_update_vel b dt (hm b (by simp)),
      ih (fun b hb => hm b (List.mem_cons_of_mem _ hb)), smul_add]
    abel

lemma momentum_zipWith_set_force :
    ∀ (l1 : List Body) (l2 : List Vec2), l2.length = l1.length →
      momentum (List.zipWith Body.set_force l1 l2) = momentum l1 := by
  intro l1
  induction l1 with
  | nil => intro l2 _; simp [momentum]
  | cons b l1 ih =>
    intro l2 hlen
    cases l2 with
    | nil => simp at hlen
    | cons f l2 =>
      simp only [List.zipWith_cons_cons, momentum, List.map_cons,
        List.sum_cons] at ih ⊢
      rw [ih l2 (by simpa using hlen)]
      rfl

lemma momentum_calculate_forces (objects : List Body) :
    momentum (calculate_forces objects) = momentum objects :=
  momentum_zipWith_set_force objects _ (accum_forces_length objects)

lemma zipWith_set_force_map_force :
    ∀ (l1 : List Body) (l2 : List Vec2), l2.length = l1.length →
      ((List.zipWith Body.set_force l1 l2).map Body.force).sum = l2.sum := by
  intro l1
  induction l1 with
  | nil => intro l2 hlen; cases l2 with
    | nil => rfl
    | cons f l2 => simp at hlen
  | cons b l1 ih =>
    intro l2 hlen
    cases l2 with
    | nil => simp at hlen
    | cons f l2 =>
      simp only [List.zipWith_cons_cons, List.map_cons, List.sum_cons]
      rw [ih l2 (by simpa using hlen)]
      rfl

/-- The forces assigned by one solver pass sum to the zero vector. -/
lemma calculate_forces_total (objects : List Body) :
    ((calculate_forces objects).map Body.force).sum = 0 := by
  unfold calculate_forces
  rw [zipWith_set_force_map_force objects _ (accum_forces_length objects),
    accum_forces_sum]

lemma mem_calculate_forces (objects : List Body) (b' : Body)
    (hb : b' ∈ calculate_forces objects) :
    ∃ b ∈ objects, ∃ f, b' = b.set_force f := by
  unfold calculate_forces at hb
  revert hb
  generalize accum_forces objects = l2
  induction objects generalizing l2 with
  | nil => intro hb; simp at hb
  | cons b l1 ih =>
    intro hb
    cases l2 with
    | nil => simp at hb
    | cons f l2 =>
      rcases List.mem_cons.mp hb with h | h
      · exact ⟨b, by simp, f, h⟩
      · obtain ⟨a, ha, g, hg⟩ := ih l2 h
        exact ⟨a, List.mem_cons_of_mem _ ha, g, hg⟩

lemma sum_map_flatMap {α β M : Type*} [AddCommMonoid M]
    (f : α → List β) (g : β → M) :
    ∀ l : List α, ((l.flatMap f).map g).sum
      = (l.map (fun a => ((f a).map g).sum)).sum := by
  intro l
  induction l with
  | nil => rfl
  | cons a l ih =>
    simp only [List.flatMap_cons, List.map_append, List.sum_append,
      List.map_cons, List.sum_cons, ih]

lemma sum_map_range' {M : Type*} [AddCommMonoid M] (g : ℕ → M) :
    ∀ k a : ℕ,
      ((List.range' a k).map g).sum = ∑ j ∈ Finset.Ico a (a + k), g j := by
  intro k
  induction k with
  | zero => intro a; simp
  | succ k ih =>
    intro a
    rw [List.range'_succ, List.map_cons, List.sum_cons, ih (a + 1),
      show a + (k + 1) = a + 1 + k by omega,
      Finset.sum_eq_sum_Ico_succ_bot (show a < a + 1 + k by omega) g]

lemma sum_map_range {M : Type*} [AddCommMonoid M] (g : ℕ → M) (k : ℕ) :
    ((List.range k).map g).sum = ∑ j ∈ Finset.range k, g j := by
  rw [List.range_eq_range', sum_map_range' g k 0, Finset.range_eq_Ico]
  simp

/-- Summing the contributions of all visited pairs at a fixed index `i`
gives the two half-sums of pairwise forces involving `i`. -/
lemma pair_contrib_sum (objects : List Body) (i : ℕ)
    (hi : i < objects.length) :
    ((pair_indices objects.length).map (pair_contrib objects i)).sum
      = (∑ j ∈ Finset.Ico (i + 1) objects.length,
          pair_force (objects.getD i body0) (objects.getD j body0))
        + ∑ j ∈ Finset.range i,
            -pair_force (objects.getD j body0) (objects.getD i body0) := by
  set n := objects.length with hn
  unfold pair_indices
  rw [sum_map_flatMap]
  simp only [List.map_map, Function.comp_def]
  rw [sum_map_range]
  have step1 :
      ∑ i1 ∈ Finset.range (n - 1),
        ((List.range' (i1 + 1) (n - 1 - i1)).map
          (fun i2 => pair_contrib objects i (i1, i2))).sum
      = ∑ i1 ∈ Finset.range (n - 1),
          ∑ i2 ∈ Finset.Ico (i1 + 1) n, pair_contrib objects i (i1, i2) := by
    refine Finset.sum_congr rfl (fun i1 h1 => ?_)
    rw [sum_map_range',
      show i1 + 1 + (n - 1 - i1) = n by
        have := Finset.mem_range.mp h1; omega]
  rw [step1]
  simp only [pair_contrib]
  have split :
      ∑ i1 ∈ Finset.range (n - 1), ∑ i2 ∈ Finset.Ico (i1 + 1) n,
        ((if i = i1 then
            pair_force (objects.getD i1 body0) (objects.getD i2 body0)
          else 0) +
         (if i = i2 then
            -pair_force (objects.getD i1 body0) (objects.getD i2 body0)
          else 0))
      = (∑ i1 ∈ Finset.range (n - 1), ∑ i2 ∈ Finset.Ico (i1 + 1) n,
          (if i = i1 then
            pair_force (objects.getD i1 body0) (objects.getD i2 body0)
           else 0))
        + ∑ i1 ∈ Finset.range (n - 1), ∑ i2 ∈ Finset.Ico (i1 + 1) n,
            (if i = i2 then
              -pair_force (objects.getD i1 body0) (objects.getD i2 body0)
             else 0) := by
    rw [← Finset.sum_add_distrib]
    exact Finset.sum_congr rfl (fun i1 _ => Finset.sum_add_distrib)
  rw [split]
  congr 1
  · rw [Finset.sum_congr rfl (fun i1 _ => Finset.sum_ite_irrel _ _ _ _),
      Finset.sum_congr rfl
        (fun i1 (_ : i1 ∈ Finset.range (n - 1)) =>
          by rw [Finset.sum_const_zero]),
      Finset.sum_ite_eq (Finset.range (n - 1)) i]
    by_cases hc : i ∈ Finset.range (n - 1)
    · rw [if_pos hc]
    · rw [if_neg hc]
      have hge : ¬ i < n - 1 := fun h => hc (Finset.mem_range.mpr h)
      have hin : i + 1 = n := by omega
      rw [← hin]
      simp
  · rw [Finset.sum_congr rfl
      (fun i1 (_ : i1 ∈ Finset.range (n - 1)) =>
        Finset.sum_ite_eq (Finset.Ico (i1 + 1) n) i _)]
    have step2 :
        ∑ i1 ∈ Finset.range (n - 1),
          (if i ∈ Finset.Ico (i1 + 1) n then
            -pair_force (objects.getD i1 body0) (objects.getD i body0)
           else 0)
        = ∑ i1 ∈ Finset.range (n - 1),
            (if i1 < i then
              -pair_force (objects.getD i1 body0) (objects.getD i body0)
             else 0) := by
      refine Finset.sum_congr rfl (fun i1 _ => ?_)
      by_cases hc : i1 < i
      · rw [if_pos (Finset.mem_Ico.mpr ⟨by omega, hi⟩), if_pos hc]
      · rw [if_neg (fun hm => hc (by have := Finset.mem_Ico.mp hm; omega)),
          if_neg hc]
    rw [step2, ← Finset.sum_filter,
      show (Finset.range (n - 1)).filter (· < i) = Finset.range i by
        ext x
        simp only [Finset.mem_filter, Finset.mem_range]
        omega]

/-- Closed form of the force accumulator at index `i`: forces toward all
later-indexed partners plus reactions from all earlier-indexed partners. -/
lemma accum_forces_getD (objects : List Body) (i : ℕ)
    (hi : i < objects.length) :
    (accum_forces objects).getD i (0, 0)
      = (∑ j ∈ Finset.Ico (i + 1) objects.length,
          pair_force (objects.getD i body0) (objects.getD j body0))
        + ∑ j ∈ Finset.range i,
            -pair_force (objects.getD j body0) (objects.getD i body0) := by
  unfold accum_forces
  rw [foldl_apply_pair_getD _ _ _ i (by simpa using hi),
    pair_contrib_sum objects i hi]
  have hrep : (List.replicate objects.length
      (((0 : ℝ), (0 : ℝ)) : Vec2)).getD i (0, 0) = (0, 0) := by
    simp [List.getD_eq_getElem?_getD]
  rw [hrep]
  exact zero_add _

/-- C1: for every list of bodies with pairwise distinct positions, one
`calculate_forces` pass assigns to each body the sum, over all other
bodies, of the vector of magnitude `G * m_i * m_j / d^2` directed from
body `i` toward body `j`, each unordered pair contributing exactly once;
the previous value of the force field does not contribute (the equality
holds whatever forces the bodies carried before the call). -/
theorem claim_C1 (objects : List Body)
    (hd : ∀ i j, i < objects.length → j < objects.length → i ≠ j →
      (objects.getD i body0).pos ≠ (objects.getD j body0).pos)
    (i : ℕ) (hi : i < objects.length) :
    ((calculate_forces objects).getD i body0).force
      = ∑ j ∈ (Finset.range objects.length).erase i,
          spec_pair_force (objects.getD i body0) (objects.getD j body0) := by
  rw [calculate_forces_getD objects i hi]
  show (accum_forces objects).getD i (0, 0) = _
  rw [accum_forces_getD objects i hi]
  have e1 : ∀ j ∈ Finset.Ico (i + 1) objects.length,
      pair_force (objects.getD i body0) (objects.getD j body0)
        = spec_pair_force (objects.getD i body0) (objects.getD j body0) := by
    intro j hj
    have hj' := Finset.mem_Ico.mp hj
    exact pair_force_eq_spec _ _ (hd i j hi hj'.2 (by omega))
  have e2 : ∀ j ∈ Finset.range i,
      -pair_force (objects.getD j body0) (objects.getD i body0)
        = spec_pair_force (objects.getD i body0) (objects.getD j body0) := by
    intro j hj
    have hj' := Finset.mem_range.mp hj
    rw [pair_force_eq_spec _ _ (hd j i (by omega) hi (by omega)),
      spec_pair_force_antisymm (objects.getD i body0) (objects.getD j body0),
      neg_neg]
  rw [Finset.sum_congr rfl e1, Finset.sum_congr rfl e2]
  have hsplit : (Finset.range objects.length).erase i
      = Finset.range i ∪ Finset.Ico (i + 1) objects.length := by
    ext x
    simp only [Finset.mem_erase, Finset.mem_range, Finset.mem_union,
      Finset.mem_Ico]
    omega
  have hdisj : Disjoint (Finset.range i)
      (Finset.Ico (i + 1) objects.length) := by
    refine Finset.disjoint_left.mpr (fun x hx hx' => ?_)
    have h1 := Finset.mem_range.mp hx
    have h2 := Finset.mem_Ico.mp hx'
    omega
  rw [hsplit, Finset.sum_union hdisj]
  exact add_comm _ _

/-- Witness for C1 at a concrete two-body list with distinct positions. -/
theorem claim_C1_witness :
    ((calculate_forces
        [⟨((0 : ℝ), (0 : ℝ)), (0, 0), 1, 1, (0, 0)⟩,
         ⟨((1e8 : ℝ), (0 : ℝ)), (0, 0), 1, 1, (0, 0)⟩]).getD 0 body0).force
      = ∑ j ∈ (Finset.range
          ([⟨((0 : ℝ), (0 : ℝ)), (0, 0), 1, 1, (0, 0)⟩,
            ⟨((1e8 : ℝ), (0 : ℝ)), (0, 0), 1, 1, (0, 0)⟩] : List Body).length).erase 0,
          spec_pair_force
            (([⟨((0 : ℝ), (0 : ℝ)), (0, 0), 1, 1, (0, 0)⟩,
               ⟨((1e8 : ℝ), (0 : ℝ)), (0, 0), 1, 1, (0, 0)⟩] : List Body).getD 0 body0)
            (([⟨((0 : ℝ), (0 : ℝ)), (0, 0), 1, 1, (0, 0)⟩,
               ⟨((1e8 : ℝ), (0 : ℝ)), (0, 0), 1, 1, (0, 0)⟩] : List Body).getD j body0) := by
  refine claim_C1 _ ?_ 0 (by simp)
  intro i j hi hj hne
  simp only [List.length_cons, List.length_nil] at hi hj
  interval_cases i <;> interval_cases j <;>
    simp_all [List.getD, Prod.ext_iff] <;> norm_num

/-- C2: for distinct indices, the pairwise contribution the inner loop
adds to the first body's accumulator is the exact negation of the
contribution it adds to the second body's accumulator, and for a
two-body list the assigned forces satisfy `force_0 = -force_1`. -/
theorem claim_C2 (objects : List Body) (acc : List Vec2) (i1 i2 : ℕ)
    (hne : i1 ≠ i2) (h1 : i1 < acc.length) (h2 : i2 < acc.length)
    (b1 b2 : Body) :
    ((apply_pair objects acc (i1, i2)).getD i1 (0, 0) - acc.getD i1 (0, 0))
      = -((apply_pair objects acc (i1, i2)).getD i2 (0, 0)
          - acc.getD i2 (0, 0))
    ∧ ((calculate_forces [b1, b2]).getD 0 body0).force
        = -((calculate_forces [b1, b2]).getD 1 body0).force := by
  constructor
  · rw [apply_pair_getD _ _ _ _ h1, apply_pair_getD _ _ _ _ h2]
    unfold pair_contrib
    rw [if_pos (show i1 = (i1, i2).1 from rfl),
      if_neg (show ¬ i1 = (i1, i2).2 from hne),
      if_neg (show ¬ i2 = (i1, i2).1 from fun h => hne h.symm),
      if_pos (show i2 = (i1, i2).2 from rfl)]
    abel
  · rw [calculate_forces_getD [b1, b2] 0 (by simp),
      calculate_forces_getD [b1, b2] 1 (by simp),
      accum_forces_getD [b1, b2] 0 (by simp),
      accum_forces_getD [b1, b2] 1 (by simp)]
    simp [Body.set_force, Finset.sum_Ico_eq_sum_range, List.getD]

/-- Witness for C2 at concrete indices, accumulators and bodies. -/
theorem claim_C2_witness :
    (((apply_pair [] [((0 : ℝ), (0 : ℝ)), ((0 : ℝ), (0 : ℝ))] (0, 1)).getD 0 (0, 0)
        - ([((0 : ℝ), (0 : ℝ)), ((0 : ℝ), (0 : ℝ))] : List Vec2).getD 0 (0, 0))
      = -((apply_pair [] [((0 : ℝ), (0 : ℝ)), ((0 : ℝ), (0 : ℝ))] (0, 1)).getD 1 (0, 0)
          - ([((0 : ℝ), (0 : ℝ)), ((0 : ℝ), (0 : ℝ))] : List Vec2).getD 1 (0, 0)))
    ∧ ((calculate_forces
        [⟨((0 : ℝ), (0 : ℝ)), (0, 0), 1, 1, (0, 0)⟩,
         ⟨((3 : ℝ), (4 : ℝ)), (0, 0), 2, 1, (0, 0)⟩]).getD 0 body0).force
      = -((calculate_forces
          [⟨((0 : ℝ), (0 : ℝ)), (0, 0), 1, 1, (0, 0)⟩,
           ⟨((3 : ℝ), (4 : ℝ)), (0, 0), 2, 1, (0, 0)⟩]).getD 1 body0).force :=
  claim_C2 [] [((0 : ℝ), (0 : ℝ)), ((0 : ℝ), (0 : ℝ))] 0 1
    (by decide) (by simp) (by simp)
    ⟨((0 : ℝ), (0 : ℝ)), (0, 0), 1, 1, (0, 0)⟩
    ⟨((3 : ℝ), (4 : ℝ)), (0, 0), 2, 1, (0, 0)⟩

/-- C3: one integration step is an explicit Euler step: the new position
uses the pre-step velocity, the new velocity uses the pre-step force and
mass, and nothing else changes. -/
theorem claim_C3 (b : Body) (dt : ℝ) :
    b.update_state dt
      = ⟨b.pos + vscale b.vel dt,
         b.vel + vscale (sdiv b.force b.mass) dt,
         b.mass, b.radius, b.force⟩ := rfl

/-- C10: `update_state` modifies only position and velocity, and
`calculate_forces` modifies only each body's force. -/
theorem claim_C10 (b : Body) (dt : ℝ) (objects : List Body) :
    ((b.update_state dt).mass = b.mass
      ∧ (b.update_state dt).radius = b.radius
      ∧ (b.update_state dt).force = b.force)
    ∧ ((calculate_forces objects).length = objects.length
      ∧ ∀ i, i < objects.length →
          ((calculate_forces objects).getD i body0).pos
              = (objects.getD i body0).pos
          ∧ ((calculate_forces objects).getD i body0).vel
              = (objects.getD i body0).vel
          ∧ ((calculate_forces objects).getD i body0).mass
              = (objects.getD i body0).mass
          ∧ ((calculate_forces objects).getD i body0).radius
              = (objects.getD i body0).radius) := by
  refine ⟨⟨rfl, rfl, rfl⟩, calculate_forces_length objects, fun i hi => ?_⟩
  rw [calculate_forces_getD objects i hi]
  exact ⟨rfl, rfl, rfl, rfl⟩

/-- Witness for C10 at a concrete body and one-element list. -/
theorem claim_C10_witness :
    ((calculate_forces [body0]).getD 0 body0).vel
        = (([body0] : List Body).getD 0 body0).vel
    ∧ (body0.update_state 1).force = body0.force :=
  ⟨((claim_C10 body0 1 [body0]).2.2 0 (by simp)).2.1,
    (claim_C10 body0 1 [body0]).1.2.2⟩

lemma sim_step_time (dt : ℝ) (s : SimState) :
    (sim_step dt s).time = s.time + dt := rfl

lemma sim_step_objects (dt : ℝ) (s : SimState) :
    (sim_step dt s).objects
      = (calculate_forces s.objects).map (fun b => b.update_state dt) := rfl

lemma on_update_succ (n : ℕ) (dt : ℝ) (s : SimState) :
    on_update (n + 1) dt s = sim_step dt (on_update n dt s) := by
  unfold on_update
  rw [List.range_succ, List.foldl_append]
  rfl

lemma on_update_time (dt : ℝ) :
    ∀ (n : ℕ) (s : SimState),
      (on_update n dt s).time = s.time + n * dt := by
  intro n
  induction n with
  | zero => intro s; simp [on_update]
  | succ n ih =>
    intro s
    rw [on_update_succ, sim_step_time, ih s]
    push_cast
    ring

/-- C8: after `n_steps` steps of size `dt` the simulated time is the
starting time plus `n_steps * dt`; with positive `dt` it strictly
increases. -/
theorem claim_C8 (n_steps : ℕ) (dt : ℝ) (s : SimState) :
    (on_update n_steps dt s).time = s.time + n_steps * dt
    ∧ (0 < n_steps → 0 < dt → s.time < (on_update n_steps dt s).time) := by
  refine ⟨on_update_time dt n_steps s, fun hn hdt => ?_⟩
  rw [on_update_time dt n_steps s]
  have hpos : (0 : ℝ) < n_steps * dt :=
    mul_pos (by exact_mod_cast hn) hdt
  linarith

/-- Witness for C8: two steps of size one starting at time zero. -/
theorem claim_C8_witness :
    (on_update 2 1 ⟨0, []⟩).time = 0 + ((2 : ℕ) : ℝ) * 1
    ∧ (0 : ℝ) < (on_update 2 1 ⟨0, []⟩).time := by
  have h := claim_C8 2 1 ⟨0, []⟩
  exact ⟨h.1, h.2 (by norm_num) (by norm_num)⟩

/-- C9: a step on an empty or one-body list runs without any pair being
processed: the remaining body's force is set to the zero vector and its
velocity is unchanged. -/
theorem claim_C9 (t dt : ℝ) (b : Body) (_hm : 0 < b.mass) :
    (sim_step dt ⟨t, []⟩).objects = []
    ∧ (sim_step dt ⟨t, [b]⟩).objects.map Body.force = [(0, 0)]
    ∧ (sim_step dt ⟨t, [b]⟩).objects.map Body.vel = [b.vel] := by
  refine ⟨rfl, rfl, ?_⟩
  show [((b.set_force (0, 0)).update_state dt).vel] = [b.vel]
  simp [Body.set_force, Body.update_state, sdiv, vscale, Prod.ext_iff]

/-- Witness for C9 at a concrete body of positive mass. -/
theorem claim_C9_witness :
    (sim_step 1 ⟨0, []⟩).objects = []
    ∧ (sim_step 1 ⟨0, [⟨((0 : ℝ), (0 : ℝ)), (5, 7), 2, 1, (9, 9)⟩]⟩).objects.map
        Body.force = [(0, 0)]
    ∧ (sim_step 1 ⟨0, [⟨((0 : ℝ), (0 : ℝ)), (5, 7), 2, 1, (9, 9)⟩]⟩).objects.map
        Body.vel = [(Body.mk ((0 : ℝ), (0 : ℝ)) (5, 7) 2 1 (9, 9)).vel] :=
  claim_C9 0 1 ⟨((0 : ℝ), (0 : ℝ)), (5, 7), 2, 1, (9, 9)⟩ (by norm_num)

/-- A force-solve-then-integrate pass preserves total momentum when no
mass is zero: the assigned forces sum to zero. -/
lemma step_momentum (dt : ℝ) (objs : List Body)
    (hm : ∀ b ∈ objs, b.mass ≠ 0) :
    momentum ((calculate_forces objs).map (fun b => b.update_state dt))
      = momentum objs := by
  have hm' : ∀ b' ∈ calculate_forces objs, b'.mass ≠ 0 := by
    intro b' hb'
    obtain ⟨b, hbm, f, rfl⟩ := mem_calculate_forces objs b' hb'
    exact hm b hbm
  rw [momentum_map_update dt _ hm', calculate_forces_total, smul_zero,
    add_zero, momentum_calculate_forces]

lemma step_mass (dt : ℝ) (objs : List Body) :
    ∀ b'' ∈ (calculate_forces objs).map (fun b => b.update_state dt),
      ∃ b ∈ objs, b''.mass = b.mass := by
  intro b'' hb
  obtain ⟨b', hb', rfl⟩ := List.mem_map.mp hb
  obtain ⟨b, hbm, f, rfl⟩ := mem_calculate_forces objs b' hb'
  exact ⟨b, hbm, rfl⟩

/-- C4: with pairwise distinct positions and positive masses, total
momentum is unchanged by one simulation step, and hence by any number
of advance steps. -/
theorem claim_C4 (objects : List Body) (dt t : ℝ)
    (_hd : ∀ i j, i < objects.length → j < objects.length → i ≠ j →
      (objects.getD i body0).pos ≠ (objects.getD j body0).pos)
    (hm : ∀ b ∈ objects, 0 < b.mass) :
    momentum ((calculate_forces objects).map (fun b => b.update_state dt))
        = momentum objects
    ∧ ∀ n, momentum ((on_update n dt ⟨t, objects⟩).objects)
        = momentum objects := by
  have key : ∀ n, (∀ b ∈ (on_update n dt ⟨t, objects⟩).objects, 0 < b.mass)
      ∧ momentum ((on_update n dt ⟨t, objects⟩).objects)
          = momentum objects := by
    intro n
    induction n with
    | zero => exact ⟨hm, rfl⟩
    | succ n ih =>
      rw [on_update_succ]
      constructor
      · intro b hb
        rw [sim_step_objects] at hb
        obtain ⟨b', hb', he⟩ := step_mass dt _ b hb
        rw [he]
        exact ih.1 b' hb'
      · rw [sim_step_objects,
          step_momentum dt _ (fun b hb => ne_of_gt (ih.1 b hb)), ih.2]
  exact ⟨step_momentum dt objects (fun b hb => ne_of_gt (hm b hb)),
    fun n => (key n).2⟩

/-- Witness for C4 at a concrete one-body list, taking five steps. -/
theorem claim_C4_witness :
    momentum ((calculate_forces [⟨((0 : ℝ), (0 : ℝ)), (1, 2), 3, 1, (0, 0)⟩]).map
        (fun b => b.update_state 1))
      = momentum [⟨((0 : ℝ), (0 : ℝ)), (1, 2), 3, 1, (0, 0)⟩]
    ∧ momentum ((on_update 5 1
        ⟨0, [⟨((0 : ℝ), (0 : ℝ)), (1, 2), 3, 1, (0, 0)⟩]⟩).objects)
      = momentum [⟨((0 : ℝ), (0 : ℝ)), (1, 2), 3, 1, (0, 0)⟩] := by
  have h := claim_C4 [⟨((0 : ℝ), (0 : ℝ)), (1, 2), 3, 1, (0, 0)⟩] 1 0
    (by
      intro i j hi hj hne
      simp only [List.length_cons, List.length_nil] at hi hj
      omega)
    (by
      intro b hb
      simp only [List.mem_cons, List.not_mem_nil, or_false] at hb
      rw [hb]
      norm_num)
  exact ⟨h.1, h.2 5⟩

lemma norm2_x (a : ℝ) : norm2 (a, 0) = |a| := by
  unfold norm2
  rw [show a ^ 2 + (0 : ℝ) ^ 2 = a ^ 2 by ring]
  exact Real.sqrt_sq_eq_abs a

lemma trail_cap_of_le (pts : List Vec2) (h : pts.length ≤ 100) :
    trail_cap pts = pts := if_neg (by omega)

lemma trail_cap_of_gt (pts : List Vec2) (h : 100 < pts.length) :
    trail_cap pts = pts.drop 1 := if_pos h

/-- Branch of `set_pos` taken while fewer than two points are stored. -/
lemma set_pos_small (points : List Vec2) (pos : Vec2)
    (h : points.length < 2) :
    Trail.set_pos points pos = points ++ [pos] := by
  unfold Trail.set_pos
  rw [if_pos h, trail_cap_of_le _ (by simp; omega)]

/-- Collapse branch of `set_pos`: the new position is within the spacing
threshold of the second-to-last stored point. -/
lemma set_pos_collapse (points : List Vec2) (pos : Vec2)
    (h2 : 2 ≤ points.length) (hlen : points.length ≤ 100)
    (hc : norm2 (points.getD (points.length - 2) (0, 0) - pos)
      < WORLD_WIDTH * 0.01) :
    Trail.set_pos points pos = points.set (points.length - 1) pos := by
  unfold Trail.set_pos
  rw [if_neg (by omega), if_pos hc, trail_cap_of_le _ (by simp; omega)]

/-- Append branch of `set_pos` without cap eviction. -/
lemma set_pos_append_far (points : List Vec2) (pos : Vec2)
    (h2 : 2 ≤ points.length) (hc : ¬ norm2 (points.getD
      (points.length - 2) (0, 0) - pos) < WORLD_WIDTH * 0.01)
    (hlen : points.length ≤ 99) :
    Trail.set_pos points pos = points ++ [pos] := by
  unfold Trail.set_pos
  rw [if_neg (by omega), if_neg hc, trail_cap_of_le _ (by simp; omega)]

/-- Append branch of `set_pos` at the cap: the oldest point is dropped. -/
lemma set_pos_append_drop (points : List Vec2) (pos : Vec2)
    (h2 : 2 ≤ points.length) (hc : ¬ norm2 (points.getD
      (points.length - 2) (0, 0) - pos) < WORLD_WIDTH * 0.01)
    (hlen : points.length = 100) :
    Trail.set_pos points pos = (points ++ [pos]).drop 1 := by
  unfold Trail.set_pos
  rw [if_neg (by omega), if_neg hc, trail_cap_of_gt _ (by simp; omega)]

lemma set_pos_length_le (points : List Vec2) (pos : Vec2)
    (h : points.length ≤ 100) :
    (Trail.set_pos points pos).length ≤ 100 := by
  unfold Trail.set_pos trail_cap
  split_ifs <;> simp_all <;> omega

lemma trail_run_cap :
    ∀ (ps pts : List Vec2), pts.length ≤ 100 →
      (ps.foldl Trail.set_pos pts).length ≤ 100 := by
  intro ps
  induction ps with
  | nil => intro pts h; exact h
  | cons p ps ih =>
    intro pts h
    exact ih _ (set_pos_length_le pts p h)

/-- C5: the stored point count never exceeds the cap of 100 (both as a
preserved bound and for every trail grown from empty), and an insertion
at the cap removes exactly the oldest stored point. -/
theorem claim_C5 (points : List Vec2) (pos : Vec2) (ps : List Vec2) :
    (points.length ≤ 100 → (Trail.set_pos points pos).length ≤ 100)
    ∧ (trail_run ps).length ≤ 100
    ∧ (points.length = 100 →
        WORLD_WIDTH * 0.01
          ≤ norm2 (points.getD (points.length - 2) (0, 0) - pos) →
        Trail.set_pos points pos = points.drop 1 ++ [pos]) := by
  refine ⟨set_pos_length_le points pos, trail_run_cap ps [] (by simp),
    fun h100 hfar => ?_⟩
  rw [set_pos_append_drop points pos (by omega) (not_lt.mpr hfar) h100,
    List.drop_append_of_le_length (by omega)]

/-- Witness for C5: a full 100-point trail receiving a far-away point. -/
theorem claim_C5_witness :
    (Trail.set_pos (List.replicate 100 (((0 : ℝ), (0 : ℝ)) : Vec2))
        ((1e7 : ℝ), (0 : ℝ))).length ≤ 100
    ∧ Trail.set_pos (List.replicate 100 (((0 : ℝ), (0 : ℝ)) : Vec2))
        ((1e7 : ℝ), (0 : ℝ))
      = (List.replicate 100 (((0 : ℝ), (0 : ℝ)) : Vec2)).drop 1
          ++ [((1e7 : ℝ), (0 : ℝ))] := by
  have h := claim_C5 (List.replicate 100 (((0 : ℝ), (0 : ℝ)) : Vec2))
    ((1e7 : ℝ), (0 : ℝ)) []
  have hfar : WORLD_WIDTH * 0.01
      ≤ norm2 ((List.replicate 100 (((0 : ℝ), (0 : ℝ)) : Vec2)).getD
          ((List.replicate 100 (((0 : ℝ), (0 : ℝ)) : Vec2)).length - 2)
          (0, 0) - ((1e7 : ℝ), (0 : ℝ))) := by
    have hg : (List.replicate 100 (((0 : ℝ), (0 : ℝ)) : Vec2)).getD
        ((List.replicate 100 (((0 : ℝ), (0 : ℝ)) : Vec2)).length - 2)
        (0, 0) = ((0 : ℝ), (0 : ℝ)) := by
      simp [List.getD_eq_getElem?_getD]
    rw [hg, show (((0 : ℝ), (0 : ℝ)) : Vec2) - ((1e7 : ℝ), (0 : ℝ))
        = ((-1e7 : ℝ), (0 : ℝ)) by
      simp [Prod.ext_iff], norm2_x]
    rw [abs_of_nonpos (by norm_num)]
    norm_num [WORLD_WIDTH]
  exact ⟨h.1 (by simp), h.2.2 (by simp) hfar⟩

/-- C6: with at least two stored points and a new position within the
spacing threshold of the second-to-last one, the last stored point is
overwritten and the point count does not increase. -/
theorem claim_C6 (points : List Vec2) (pos : Vec2)
    (h2 : 2 ≤ points.length) (hlen : points.length ≤ 100)
    (hc : norm2 (points.getD (points.length - 2) (0, 0) - pos)
      < WORLD_WIDTH * 0.01) :
    Trail.set_pos points pos = points.set (points.length - 1) pos
    ∧ (Trail.set_pos points pos).length = points.length := by
  have he := set_pos_collapse points pos h2 hlen hc
  exact ⟨he, by rw [he, List.length_set]⟩

/-- Witness for C6: two coincident stored points, new position at unit
distance (far below the 5e6 km threshold). -/
theorem claim_C6_witness :
    Trail.set_pos [((0 : ℝ), (0 : ℝ)), ((0 : ℝ), (0 : ℝ))] ((1 : ℝ), (0 : ℝ))
      = ([((0 : ℝ), (0 : ℝ)), ((0 : ℝ), (0 : ℝ))] : List Vec2).set
          (([((0 : ℝ), (0 : ℝ)), ((0 : ℝ), (0 : ℝ))] : List Vec2).length - 1)
          ((1 : ℝ), (0 : ℝ))
    ∧ (Trail.set_pos [((0 : ℝ), (0 : ℝ)), ((0 : ℝ), (0 : ℝ))]
        ((1 : ℝ), (0 : ℝ))).length
      = ([((0 : ℝ), (0 : ℝ)), ((0 : ℝ), (0 : ℝ))] : List Vec2).length := by
  refine claim_C6 [((0 : ℝ), (0 : ℝ)), ((0 : ℝ), (0 : ℝ))] ((1 : ℝ), (0 : ℝ))
    (by simp) (by simp) ?_
  have hg : ([((0 : ℝ), (0 : ℝ)), ((0 : ℝ), (0 : ℝ))] : List Vec2).getD
      (([((0 : ℝ), (0 : ℝ)), ((0 : ℝ), (0 : ℝ))] : List Vec2).length - 2)
      (0, 0) = ((0 : ℝ), (0 : ℝ)) := rfl
  rw [hg, show (((0 : ℝ), (0 : ℝ)) : Vec2) - ((1 : ℝ), (0 : ℝ))
      = ((-1 : ℝ), (0 : ℝ)) by simp [Prod.ext_iff], norm2_x]
  rw [abs_of_nonpos (by norm_num)]
  norm_num [WORLD_WIDTH]

lemma norm2_zero : norm2 ((0 : ℝ), (0 : ℝ)) = 0 := by
  unfold norm2
  simp

/-- C7 counterexample: recording `(0,0)`, `(0,0)`, `(1e7,0)` from the
empty trail yields three stored points whose first two coincide, so the
first consecutive pair (not the pair of the two most recent points) is
strictly closer than the minimum spacing threshold. -/
theorem claim_C7_counterexample :
    (trail_run [((0 : ℝ), (0 : ℝ)), ((0 : ℝ), (0 : ℝ)),
        ((1e7 : ℝ), (0 : ℝ))]).length = 3
    ∧ norm2 ((trail_run [((0 : ℝ), (0 : ℝ)), ((0 : ℝ), (0 : ℝ)),
          ((1e7 : ℝ), (0 : ℝ))]).getD 0 (0, 0)
        - (trail_run [((0 : ℝ), (0 : ℝ)), ((0 : ℝ), (0 : ℝ)),
            ((1e7 : ℝ), (0 : ℝ))]).getD 1 (0, 0))
      < WORLD_WIDTH * 0.01 := by
  have hc : ¬ norm2 (([((0 : ℝ), (0 : ℝ)), ((0 : ℝ), (0 : ℝ))] : List Vec2).getD
      (([((0 : ℝ), (0 : ℝ)), ((0 : ℝ), (0 : ℝ))] : List Vec2).length - 2) (0, 0)
      - ((1e7 : ℝ), (0 : ℝ))) < WORLD_WIDTH * 0.01 := by
    have hg : ([((0 : ℝ), (0 : ℝ)), ((0 : ℝ), (0 : ℝ))] : List Vec2).getD
        (([((0 : ℝ), (0 : ℝ)), ((0 : ℝ), (0 : ℝ))] : List Vec2).length - 2)
        (0, 0) = ((0 : ℝ), (0 : ℝ)) := rfl
    rw [hg, show (((0 : ℝ), (0 : ℝ)) : Vec2) - ((1e7 : ℝ), (0 : ℝ))
        = ((-1e7 : ℝ), (0 : ℝ)) by simp [Prod.ext_iff], norm2_x,
      abs_of_nonpos (by norm_num)]
    norm_num [WORLD_WIDTH]
  have hrun : trail_run [((0 : ℝ), (0 : ℝ)), ((0 : ℝ), (0 : ℝ)),
      ((1e7 : ℝ), (0 : ℝ))]
      = [((0 : ℝ), (0 : ℝ)), ((0 : ℝ), (0 : ℝ)), ((1e7 : ℝ), (0 : ℝ))] := by
    have e1 : Trail.set_pos [] ((0 : ℝ), (0 : ℝ)) = [((0 : ℝ), (0 : ℝ))] := by
      rw [set_pos_small _ _ (by simp)]
      rfl
    have e2 : Trail.set_pos [((0 : ℝ), (0 : ℝ))] ((0 : ℝ), (0 : ℝ))
        = [((0 : ℝ), (0 : ℝ)), ((0 : ℝ), (0 : ℝ))] := by
      rw [set_pos_small _ _ (by simp)]
      rfl
    have e3 : Trail.set_pos [((0 : ℝ), (0 : ℝ)), ((0 : ℝ), (0 : ℝ))]
        ((1e7 : ℝ), (0 : ℝ))
        = [((0 : ℝ), (0 : ℝ)), ((0 : ℝ), (0 : ℝ)), ((1e7 : ℝ), (0 : ℝ))] := by
      rw [set_pos_append_far _ _ (by simp) hc (by simp)]
      rfl
    unfold trail_run
    rw [List.foldl_cons, List.foldl_cons, List.foldl_cons, List.foldl_nil,
      e1, e2, e3]
  refine ⟨by rw [hrun]; rfl, ?_⟩
  rw [hrun]
  show norm2 ((((0 : ℝ), (0 : ℝ)) : Vec2) - ((0 : ℝ), (0 : ℝ)))
      < WORLD_WIDTH * 0.01
  rw [show (((0 : ℝ), (0 : ℝ)) : Vec2) - ((0 : ℝ), (0 : ℝ))
      = ((0 : ℝ), (0 : ℝ)) by simp [Prod.ext_iff], norm2_zero]
  norm_num [WORLD_WIDTH]

lemma getD_drop_one {α : Type*} (d : α) (q : List α) (i : ℕ) :
    (q.drop 1).getD i d = q.getD (i + 1) d := by
  cases q with
  | nil => simp
  | cons a t => rfl

/-- Appending a point that passed the spacing test preserves the
decimation invariant. -/
lemma append_preserves_inv (points : List Vec2) (pos : Vec2)
    (h2 : 2 ≤ points.length)
    (hc : WORLD_WIDTH * 0.01
      ≤ norm2 (points.getD (points.length - 2) (0, 0) - pos))
    (hinv : trail_inv points) :
    trail_inv (points ++ [pos]) := by
  intro k hk
  rw [List.length_append, List.length_cons, List.length_nil] at hk
  by_cases he : k + 2 = points.length
  · left
    have hlast : (points ++ [pos]).getD points.length (0, 0) = pos := by
      rw [List.getD_append_right _ _ _ _ (le_refl _)]
      simp
    rw [he, hlast, List.getD_append _ _ _ _ (by omega),
      show k = points.length - 2 by omega]
    exact hc
  · have hk' : k + 3 ≤ points.length := by omega
    rw [List.getD_append _ _ _ _ (by omega),
      List.getD_append _ _ _ _ (by omega),
      List.getD_append _ _ _ _ (by omega)]
    exact hinv k hk'

/-- Overwriting the last point with a collapsing position preserves the
decimation invariant. -/
lemma collapse_preserves_inv (points : List Vec2) (pos : Vec2)
    (h2 : 2 ≤ points.length)
    (hc : norm2 (points.getD (points.length - 2) (0, 0) - pos)
      < WORLD_WIDTH * 0.01)
    (hinv : trail_inv points) :
    trail_inv (points.set (points.length - 1) pos) := by
  intro k hk
  rw [List.length_set] at hk
  by_cases he : k + 2 = points.length - 1
  · right
    rw [he, getD_set_self _ _ _ _ (by omega),
      getD_set_ne _ _ _ _ _ (by omega),
      show k + 1 = points.length - 2 by omega]
    exact hc
  · rw [getD_set_ne _ _ _ _ _ (by omega),
      getD_set_ne _ _ _ _ _ (by omega),
      getD_set_ne _ _ _ _ _ (by omega)]
    exact hinv k hk

lemma drop_preserves_inv (q : List Vec2) (hinv : trail_inv q) :
    trail_inv (q.drop 1) := by
  intro k hk
  rw [List.length_drop] at hk
  rw [getD_drop_one, getD_drop_one, getD_drop_one,
    show k + 2 + 1 = k + 1 + 2 by omega, show k + 1 + 1 = k + 1 + 1 from rfl]
  exact hinv (k + 1) (by omega)

/-- Every `set_pos` call preserves the decimation invariant on trails
within the cap. -/
lemma set_pos_preserves_inv (points : List Vec2) (pos : Vec2)
    (hlen : points.length ≤ 100) (hinv : trail_inv points) :
    trail_inv (Trail.set_pos points pos) := by
  by_cases h1 : points.length < 2
  · rw [set_pos_small _ _ h1]
    intro k hk
    rw [List.length_append, List.length_cons, List.length_nil] at hk
    exact absurd hk (by omega)
  · by_cases hcond : norm2 (points.getD (points.length - 2) (0, 0) - pos)
        < WORLD_WIDTH * 0.01
    · rw [set_pos_collapse _ _ (by omega) hlen hcond]
      exact collapse_preserves_inv _ _ (by omega) hcond hinv
    · by_cases h99 : points.length ≤ 99
      · rw [set_pos_append_far _ _ (by omega) hcond h99]
        exact append_preserves_inv _ _ (by omega) (not_lt.mp hcond) hinv
      · rw [set_pos_append_drop _ _ (by omega) hcond (by omega)]
        exact drop_preserves_inv _
          (append_preserves_inv _ _ (by omega) (not_lt.mp hcond) hinv)

lemma trail_run_inv_aux :
    ∀ (ps pts : List Vec2), pts.length ≤ 100 → trail_inv pts →
      trail_inv (ps.foldl Trail.set_pos pts) := by
  intro ps
  induction ps with
  | nil => intro pts _ hi; exact hi
  | cons p ps ih =>
    intro pts h hi
    exact ih _ (set_pos_length_le pts p h) (set_pos_preserves_inv pts p h hi)

/-- C7 amended: on every trail grown from empty, each stored point other
than the first two is at least the spacing threshold away from the point
two positions before it, or is within the threshold of its immediate
predecessor (a point last written by the collapse branch); the claimed
consecutive-pair spacing fails (see the counterexample). -/
theorem claim_C7_amended (ps : List Vec2) : trail_inv (trail_run ps) :=
  trail_run_inv_aux ps [] (by simp)
    (fun _ hk => absurd hk (by simp))

/-- Witness for the amended C7 on a concrete recording sequence. -/
theorem claim_C7_amended_witness :
    trail_inv (trail_run [((0 : ℝ), (0 : ℝ)), ((1e7 : ℝ), (0 : ℝ))]) :=
  claim_C7_amended [((0 : ℝ), (0 : ℝ)), ((1e7 : ℝ), (0 : ℝ))]

end GravitySim
